import Mathlib

/-!
Verification of the scene-graph core of the interactive 3D modeller:
hierarchical model nodes with transform composition (`model.cpp`),
procedural primitive meshes (`shape.cpp`), node lifecycle with flat-file
serialization (`model.cpp`), and the editor's incremental pivot-centred
rotation (`main.cpp`).

The C++ is embedded shallowly.  4x4 float matrices become `Matrix (Fin 4)
(Fin 4) α` over a commutative ring (`ℝ` where trigonometry is involved,
`ℚ` for executable witnesses); `glm` is column-major but its `operator*`
is ordinary mathematical matrix multiplication, so matrices are written
in row/column convention and `m[3]` (the fourth glm column) is column 3.
Pointer identity of `model_node*` is modelled by never-reused numeric
node ids; `std::vector<model_node*>` registries become `List Nat`.
Text parsing of a save line is abstracted to `Option save_rec`: `none`
stands for a line on which the 15-field extraction fails.
-/

set_option maxHeartbeats 1000000

abbrev Mat4 (α : Type) := Matrix (Fin 4) (Fin 4) α

/-- Embedding of `glm::translate(mat4(1), v)`: identity with `v` in the fourth column. -/
def translateMat {α : Type} [CommRing α] (v : Fin 3 → α) : Mat4 α :=
  !![1, 0, 0, v 0; 0, 1, 0, v 1; 0, 0, 1, v 2; 0, 0, 0, 1]

/-- Embedding of `glm::scale(mat4(1), v)`: diagonal `(v0, v1, v2, 1)`. -/
def scaleMat {α : Type} [CommRing α] (v : Fin 3 → α) : Mat4 α :=
  !![v 0, 0, 0, 0; 0, v 1, 0, 0; 0, 0, v 2, 0; 0, 0, 0, 1]

/-- Embedding of `glm::rotate(mat4(1), ang, vec3(0,1,0))`, expressed through the cosine
`c` and sine `s` of the angle. -/
def glm_rotate_y {α : Type} [CommRing α] (c s : α) : Mat4 α :=
  !![c, 0, s, 0; 0, 1, 0, 0; -s, 0, c, 0; 0, 0, 0, 1]

/-- Embedding of `glm::radians`: degrees to radians. -/
noncomputable def glm_radians (deg : ℝ) : ℝ := deg * (Real.pi / 180)

/-- The per-node state of a `model_node` apart from its family links:
an optional shape (as an index into the owning graph's `owned_shapes`
pool), the three independently accumulated transform matrices, and the
RGBA color. -/
structure NodeData (α : Type) where
  shape : Option Nat
  translation : Mat4 α
  rotation : Mat4 α
  scale : Mat4 α
  color : Fin 4 → α

/-- The `model_node` constructor: identity transforms, opaque white. -/
def newNodeData {α : Type} [CommRing α] (shape : Option Nat) : NodeData α :=
  ⟨shape, 1, 1, 1, ![1, 1, 1, 1]⟩

/-- Embedding of `model_node::local_matrix()`: `translation * rotation * scale`. -/
def local_matrix {α : Type} [CommRing α] (n : NodeData α) : Mat4 α :=
  n.translation * n.rotation * n.scale

/-- A `model_node` with its chain of `parent` back-references: either it
has no parent, or it has a parent which again is such a node. -/
inductive NodeUp (α : Type) where
  | orphan (data : NodeData α)
  | child (data : NodeData α) (parent : NodeUp α)

/-- Embedding of `model_node::get_world_matrix()`: recursively prefix the parent's
world matrix, or return the own local matrix when there is no parent. -/
def get_world_matrix {α : Type} [CommRing α] : NodeUp α → Mat4 α
  | .orphan d => local_matrix d
  | .child d p => get_world_matrix p * local_matrix d

/-- The local matrices of the ancestor chain of a node, listed from the
root ancestor down to the node itself. -/
def ancestor_locals {α : Type} [CommRing α] : NodeUp α → List (Mat4 α)
  | .orphan d => [local_matrix d]
  | .child d p => ancestor_locals p ++ [local_matrix d]

/-- The `ShapeType` enum of `shape.hpp`, in declaration order. -/
inductive ShapeType where
  | sphere
  | cylinder
  | box
  | cone
deriving DecidableEq

/-- The integer value of a `ShapeType` enumerator (`SPHERE_SHAPE = 0`,
`CYLINDER_SHAPE = 1`, `BOX_SHAPE = 2`, `CONE_SHAPE = 3`). -/
def shapeTypeCode : ShapeType → Int
  | .sphere => 0
  | .cylinder => 1
  | .box => 2
  | .cone => 3

/-- The clamp in the `shape_t` constructor: `if (level > 4) level = 4`. -/
def clamp_level (l : Nat) : Nat := if l > 4 then 4 else l

/-- A pooled shape as the graph sees it: its kind tag and the (clamped)
tessellation level it was built with. -/
structure ShapeRec where
  kind : ShapeType
  level : Nat
deriving DecidableEq

/-- Constructing a concrete `shape_t`: the constructor clamps the level. -/
def mkShape (k : ShapeType) (tessLevel : Nat) : ShapeRec :=
  ⟨k, clamp_level tessLevel⟩

/-- A point of `makeSphere`: `(sin(phi)cos(theta), cos(phi), sin(phi)sin(theta), 1)`. -/
noncomputable def sphere_pt (phi theta : ℝ) : Fin 4 → ℝ :=
  ![Real.sin phi * Real.cos theta, Real.cos phi, Real.sin phi * Real.sin theta, 1]

/-- Embedding of `sphere_t::makeSphere`: two triangles per spherical quad, over
`stacks` bands and `slices` wedges, both `max(6 * 2^level, 6)`. -/
noncomputable def makeSphere (level : Nat) : List (Fin 4 → ℝ) :=
  let nStacks := if 6 * 2 ^ level < 6 then 6 else 6 * 2 ^ level
  let nSlices := if 6 * 2 ^ level < 6 then 6 else 6 * 2 ^ level
  (List.range nStacks).flatMap fun i =>
    (List.range nSlices).flatMap fun j =>
      let phi1 := Real.pi * i / nStacks
      let phi2 := Real.pi * (i + 1) / nStacks
      let theta1 := 2 * Real.pi * j / nSlices
      let theta2 := 2 * Real.pi * (j + 1) / nSlices
      [sphere_pt phi1 theta1, sphere_pt phi2 theta1, sphere_pt phi2 theta2,
        sphere_pt phi1 theta1, sphere_pt phi2 theta2, sphere_pt phi1 theta2]

/-- Embedding of `cylinder_t::makeCylinder`: per slice a side quad (two triangles),
then per slice a bottom-cap and a top-cap triangle. -/
noncomputable def makeCylinder (level : Nat) : List (Fin 4 → ℝ) :=
  let nSlices := if 8 * 2 ^ level < 8 then 8 else 8 * 2 ^ level
  let height : ℝ := 1
  let radius : ℝ := 1 / 2
  ((List.range nSlices).flatMap fun i =>
    let theta1 := 2 * Real.pi * i / nSlices
    let theta2 := 2 * Real.pi * (i + 1) / nSlices
    let p1 : Fin 4 → ℝ :=
      ![radius * Real.cos theta1, -(height / 2), radius * Real.sin theta1, 1]
    let p2 : Fin 4 → ℝ :=
      ![radius * Real.cos theta2, -(height / 2), radius * Real.sin theta2, 1]
    let p3 : Fin 4 → ℝ :=
      ![radius * Real.cos theta2, height / 2, radius * Real.sin theta2, 1]
    let p4 : Fin 4 → ℝ :=
      ![radius * Real.cos theta1, height / 2, radius * Real.sin theta1, 1]
    [p1, p2, p3, p1, p3, p4])
  ++ ((List.range nSlices).flatMap fun i =>
    let t1 := 2 * Real.pi * i / nSlices
    let t2 := 2 * Real.pi * (i + 1) / nSlices
    let centerBottom : Fin 4 → ℝ := ![0, -(height / 2), 0, 1]
    let centerTop : Fin 4 → ℝ := ![0, height / 2, 0, 1]
    let b1 : Fin 4 → ℝ :=
      ![radius * Real.cos t1, -(height / 2), radius * Real.sin t1, 1]
    let b2 : Fin 4 → ℝ :=
      ![radius * Real.cos t2, -(height / 2), radius * Real.sin t2, 1]
    let t1v : Fin 4 → ℝ :=
      ![radius * Real.cos t1, height / 2, radius * Real.sin t1, 1]
    let t2v : Fin 4 → ℝ :=
      ![radius * Real.cos t2, height / 2, radius * Real.sin t2, 1]
    [centerBottom, b1, b2, centerTop, t2v, t1v])

/-- Embedding of `box_t::makeBox`: a fixed half-extent-0.5 cube, 6 faces of 2 triangles,
independent of the tessellation level. -/
noncomputable def makeBox : List (Fin 4 → ℝ) :=
  let h : ℝ := 1 / 2
  let pts : List (Fin 4 → ℝ) :=
    [![-h, -h, -h, 1], ![h, -h, -h, 1], ![h, h, -h, 1], ![-h, h, -h, 1],
      ![-h, -h, h, 1], ![h, -h, h, 1], ![h, h, h, 1], ![-h, h, h, 1]]
  let faces : List (Nat × Nat × Nat × Nat) :=
    [(0, 1, 2, 3), (4, 7, 6, 5), (0, 4, 5, 1), (2, 6, 7, 3), (0, 3, 7, 4), (1, 5, 6, 2)]
  faces.flatMap fun q =>
    let g : Nat → (Fin 4 → ℝ) := fun k => pts.getD k 0
    [g q.1, g q.2.1, g q.2.2.1, g q.1, g q.2.2.1, g q.2.2.2]

/-- Embedding of `cone_t::makeCone`: per slice one apex-to-base side triangle and one
base-center triangle in reverse winding. -/
noncomputable def makeCone (level : Nat) : List (Fin 4 → ℝ) :=
  let nSlices := if 8 * 2 ^ level < 8 then 8 else 8 * 2 ^ level
  let radius : ℝ := 1 / 2
  let height : ℝ := 1
  let apex : Fin 4 → ℝ := ![0, height / 2, 0, 1]
  let center : Fin 4 → ℝ := ![0, -(height / 2), 0, 1]
  (List.range nSlices).flatMap fun i =>
    let t1 := 2 * Real.pi * i / nSlices
    let t2 := 2 * Real.pi * (i + 1) / nSlices
    let b1 : Fin 4 → ℝ :=
      ![radius * Real.cos t1, -(height / 2), radius * Real.sin t1, 1]
    let b2 : Fin 4 → ℝ :=
      ![radius * Real.cos t2, -(height / 2), radius * Real.sin t2, 1]
    [apex, b1, b2, center, b2, b1]

/-- Vertices held by a constructed `sphere_t` (constructor clamps level). -/
noncomputable def sphere_t_vertices (tessLevel : Nat) : List (Fin 4 → ℝ) :=
  makeSphere (clamp_level tessLevel)

/-- Vertices held by a constructed `cylinder_t`. -/
noncomputable def cylinder_t_vertices (tessLevel : Nat) : List (Fin 4 → ℝ) :=
  makeCylinder (clamp_level tessLevel)

/-- Vertices held by a constructed `box_t` (level accepted but ignored). -/
noncomputable def box_t_vertices (_tessLevel : Nat) : List (Fin 4 → ℝ) :=
  makeBox

/-- Vertices held by a constructed `cone_t`. -/
noncomputable def cone_t_vertices (tessLevel : Nat) : List (Fin 4 → ℝ) :=
  makeCone (clamp_level tessLevel)

/-- Embedding of `compute_shape_centroid` of `main.cpp`, as a function of the shape's
raw vertex list: zero for an empty list, else the arithmetic mean of the
xyz components. -/
def compute_shape_centroid {α : Type} [Field α] (verts : List (Fin 4 → α)) :
    Fin 3 → α :=
  if verts.length = 0 then 0
  else fun k => (verts.map fun v => v k.castSucc).sum / verts.length

/-- The `TM_ROT`, axis-Y branch of `handle_key` in `main.cpp`:
`rotation := translate(cen) * rotate(ang, (0,1,0)) * translate(-cen) * rotation`
with `cen` the centroid of the current node's shape vertices. -/
noncomputable def handle_key_rotate_y (ang : ℝ) (verts : List (Fin 4 → ℝ))
    (rot : Mat4 ℝ) : Mat4 ℝ :=
  let cen := compute_shape_centroid verts
  translateMat cen * glm_rotate_y (Real.cos ang) (Real.sin ang) *
    translateMat (-cen) * rot

/-- The subtree owned by one `model_node`: its id (standing for the node's
address; ids are never reused, mirroring pointer identity), its data, and
its owned children in order. -/
inductive NTree (α : Type) where
  | node (id : Nat) (data : NodeData α) (children : List (NTree α))

namespace NTree

/-- The id of the node at the root of a subtree. -/
def rootId {α : Type} : NTree α → Nat
  | .node i _ _ => i

/-- The data of the node at the root of a subtree. -/
def dataOf {α : Type} : NTree α → NodeData α
  | .node _ d _ => d

/-- The children of the node at the root of a subtree. -/
def childrenOf {α : Type} : NTree α → List (NTree α)
  | .node _ _ cs => cs

/-- Embedding of `model_node::collect`: push the node itself, then collect
each child in order (pre-order traversal), as the list of visited ids. -/
def collect {α : Type} : NTree α → List Nat
  | .node i _ cs => i :: cs.attach.flatMap (fun c => c.1.collect)
decreasing_by
  all_goals
    have h := List.sizeOf_lt_of_mem c.2
    simp only [NTree.node.sizeOf_spec] at *
    omega

/-- Embedding of `model_node::add_child` on the node with id `pid`: append
`c` to that node's child list (the tree is unchanged when no node carries
`pid`; in C++ such a call would go through a dead pointer). -/
def insertChild {α : Type} : NTree α → Nat → NTree α → NTree α
  | .node i d cs, pid, c =>
    if i = pid then .node i d (cs ++ [c])
    else .node i d (cs.attach.map (fun x => x.1.insertChild pid c))
decreasing_by
  all_goals
    have h := List.sizeOf_lt_of_mem x.2
    simp only [NTree.node.sizeOf_spec] at *
    omega

/-- Resolving a node id to its subtree, mirroring the dereference of a
`model_node*` that is an element of this tree. -/
def find {α : Type} : NTree α → Nat → Option (NTree α)
  | .node i d cs, tid =>
    if i = tid then some (.node i d cs)
    else cs.attach.findSome? (fun x => x.1.find tid)
decreasing_by
  all_goals
    have h := List.sizeOf_lt_of_mem x.2
    simp only [NTree.node.sizeOf_spec] at *
    omega

/-- Embedding of `remove_child` plus subtree destruction: drop every child
whose id is `tid` from every child list. When ids are unique this detaches
exactly the one subtree rooted at `tid`, as `remove_node` does. -/
def eraseSubtree {α : Type} : NTree α → Nat → NTree α
  | .node i d cs, tid =>
    .node i d ((cs.filter (fun t => t.rootId ≠ tid)).attach.map
      (fun x => x.1.eraseSubtree tid))
decreasing_by
  all_goals
    have h := List.sizeOf_lt_of_mem (List.mem_of_mem_filter x.2)
    simp only [NTree.node.sizeOf_spec] at *
    omega

end NTree

/-- The whole `model_t`: owned root tree, flat `all_nodes` registry,
shape pool, plus the allocator counter handing out fresh node ids (two
distinct `new model_node` results are never equal, and a freed address is
modelled as never observed again). -/
structure Model (α : Type) where
  root : NTree α
  all_nodes : List Nat
  owned_shapes : List ShapeRec
  nextId : Nat

/-- Embedding of the `model_t` constructor: a fresh shapeless, parentless
root, registered in `all_nodes`. -/
def model_t_new (α : Type) [CommRing α] : Model α :=
  ⟨.node 0 (newNodeData none) [], [0], [], 1⟩

/-- Common body of `model_t::create_sphere/cylinder/box/cone`: pool the
freshly built shape, construct a `model_node` referencing it with `parent`
defaulting to the root when absent, and append it to `all_nodes`. -/
def create_node {α : Type} [CommRing α] (m : Model α) (sh : ShapeRec)
    (parent : Option Nat) : Model α :=
  let pid := parent.getD m.root.rootId
  let child : NTree α :=
    .node m.nextId (newNodeData (some m.owned_shapes.length)) []
  { root := m.root.insertChild pid child
    all_nodes := m.all_nodes ++ [m.nextId]
    owned_shapes := m.owned_shapes ++ [sh]
    nextId := m.nextId + 1 }

/-- Embedding of `model_t::create_sphere` (`new sphere_t(level)`). -/
def create_sphere {α : Type} [CommRing α] (m : Model α) (level : Nat)
    (parent : Option Nat) : Model α :=
  create_node m (mkShape .sphere level) parent

/-- Embedding of `model_t::create_cylinder` (`new cylinder_t(level)`). -/
def create_cylinder {α : Type} [CommRing α] (m : Model α) (level : Nat)
    (parent : Option Nat) : Model α :=
  create_node m (mkShape .cylinder level) parent

/-- Embedding of `model_t::create_box` (`new box_t()`, default level 0). -/
def create_box {α : Type} [CommRing α] (m : Model α)
    (parent : Option Nat) : Model α :=
  create_node m (mkShape .box 0) parent

/-- Embedding of `model_t::create_cone` (`new cone_t(level)`). -/
def create_cone {α : Type} [CommRing α] (m : Model α) (level : Nat)
    (parent : Option Nat) : Model α :=
  create_node m (mkShape .cone level) parent

/-- Embedding of `model_t::remove_node`: a null pointer or the root is a
no-op; otherwise the node is detached from its parent's child list and it
and all its collected descendants are erased from `all_nodes` (the shape
pool is not touched). A non-null argument must be a live node of this
graph, as in C++; an absent id changes nothing here. -/
def remove_node {α : Type} (m : Model α) (node : Option Nat) : Model α :=
  match node with
  | none => m
  | some nid =>
    if nid = m.root.rootId then m
    else
      match m.root.find nid with
      | none => m
      | some sub =>
        { m with
          root := m.root.eraseSubtree nid
          all_nodes := m.all_nodes.filter (fun i => decide (¬ i ∈ sub.collect)) }

/-- Pre-order collection of `(id, parent id, data)` triples: the traversal
`save_to_file` performs over the collected `model_node*`s, with the parent
pointer carried alongside. -/
def collectPD {α : Type} : NTree α → Option Nat → List (Nat × Option Nat × NodeData α)
  | .node i d cs, p => (i, p, d) :: cs.attach.flatMap (fun c => collectPD c.1 (some i))
decreasing_by
  all_goals
    have h := List.sizeOf_lt_of_mem c.2
    simp only [NTree.node.sizeOf_spec] at *
    omega

/-- One line of the save file after field extraction: shape type code,
parent line index, translation column, the constant identity quaternion,
scale diagonal, rgb color. -/
structure SaveRec (α : Type) where
  type : Int
  parentIdx : Int
  t : Fin 3 → α
  q : Fin 4 → α
  s : Fin 3 → α
  col : Fin 3 → α

/-- Embedding of `model_t::save_to_file`: one record per collected node in
pre-order; the parent is encoded as the first index of the parent pointer
in the same collection, `-1` for the parentless root; the rotation is
written as the constant identity quaternion `0 0 0 1`. -/
def save_to_file {α : Type} [CommRing α] (m : Model α) : List (SaveRec α) :=
  let nodes := collectPD m.root none
  let ids := nodes.map (fun x => x.1)
  nodes.map fun x =>
    let d := x.2.2
    let parentIdx : Int :=
      match x.2.1 with
      | none => -1
      | some pid =>
        match ids.findIdx? (fun y => y == pid) with
        | some j => (j : Int)
        | none => -1
    let ty : Int :=
      match d.shape with
      | none => -1
      | some sIdx =>
        match m.owned_shapes[sIdx]? with
        | some sh => shapeTypeCode sh.kind
        | none => -1
    { type := ty
      parentIdx := parentIdx
      t := ![d.translation 0 3, d.translation 1 3, d.translation 2 3]
      q := ![0, 0, 0, 1]
      s := ![d.scale 0 0, d.scale 1 1, d.scale 2 2]
      col := ![d.color 0, d.color 1, d.color 2] }

/-- One iteration of the `while (getline)` loop of `load_from_file` over
the state (model so far, line-index node list). A `none` line is one on
which the 15-field extraction failed: it is skipped. Otherwise a shape is
built per the type code (`sphere/cylinder/cone` at tessellation level 1,
`box` at its default 0, no shape for any other code), the parent is the
entry at `parentIdx` of the nodes-so-far list when that index is in range
and the fresh root otherwise, and a node is created under it carrying the
record's translation, scale and color, with rotation left identity. -/
def load_line {α : Type} [CommRing α] (st : Model α × List Nat)
    (line : Option (SaveRec α)) : Model α × List Nat :=
  match line with
  | none => st
  | some r =>
    let m := st.1
    let nodes := st.2
    let sh : Option ShapeRec :=
      if r.type = 0 then some (mkShape .sphere 1)
      else if r.type = 1 then some (mkShape .cylinder 1)
      else if r.type = 2 then some (mkShape .box 0)
      else if r.type = 3 then some (mkShape .cone 1)
      else none
    let shapeIdx : Option Nat :=
      match sh with
      | some _ => some m.owned_shapes.length
      | none => none
    let owned : List ShapeRec :=
      match sh with
      | some s0 => m.owned_shapes ++ [s0]
      | none => m.owned_shapes
    let pid : Nat :=
      if 0 ≤ r.parentIdx ∧ r.parentIdx < (nodes.length : Int)
      then nodes.getD r.parentIdx.toNat m.root.rootId
      else m.root.rootId
    let d : NodeData α :=
      { shape := shapeIdx
        translation := translateMat r.t
        rotation := 1
        scale := scaleMat r.s
        color := ![r.col 0, r.col 1, r.col 2, 1] }
    let child : NTree α := .node m.nextId d []
    ({ root := m.root.insertChild pid child
       all_nodes := m.all_nodes ++ [m.nextId]
       owned_shapes := owned
       nextId := m.nextId + 1 }, nodes ++ [m.nextId])

/-- Embedding of `model_t::load_from_file`. The argument is `none` when
the file cannot be opened: the function returns `false` without touching
the graph. Otherwise the old graph is dropped wholesale, a fresh root is
made and registered, every line is folded through `load_line`, and the
function returns `true`. -/
def load_from_file {α : Type} [CommRing α] (m : Model α)
    (file : Option (List (Option (SaveRec α)))) : Bool × Model α :=
  match file with
  | none => (false, m)
  | some lines => (true, (lines.foldl load_line (model_t_new α, [0])).1)

/-- The registry invariant a `model_t` maintains: node ids are unique in
the tree, `all_nodes` is duplicate-free, `all_nodes` and the pre-order
traversal of the root agree as sets, and every live id is below the
allocator counter (freshness of `new model_node`). -/
def ModelInv {α : Type} (m : Model α) : Prop :=
  m.root.collect.Nodup ∧ m.all_nodes.Nodup ∧
    (∀ i, i ∈ m.all_nodes ↔ i ∈ m.root.collect) ∧
    ∀ i ∈ m.root.collect, i < m.nextId

/-- One mutating operation of the public `model_t` interface, under the
pointer-validity contract of the C++ API: a non-null `parent` handed to a
`create_*` call and a non-null `node` handed to `remove_node` must be live
nodes of this graph (anything else dereferences a dangling pointer). -/
inductive Step {α : Type} [CommRing α] : Model α → Model α → Prop where
  | step_create_sphere (m : Model α) (level : Nat) (parent : Option Nat)
      (hp : ∀ pid, parent = some pid → pid ∈ m.root.collect) :
      Step m (create_sphere m level parent)
  | step_create_cylinder (m : Model α) (level : Nat) (parent : Option Nat)
      (hp : ∀ pid, parent = some pid → pid ∈ m.root.collect) :
      Step m (create_cylinder m level parent)
  | step_create_box (m : Model α) (parent : Option Nat)
      (hp : ∀ pid, parent = some pid → pid ∈ m.root.collect) :
      Step m (create_box m parent)
  | step_create_cone (m : Model α) (level : Nat) (parent : Option Nat)
      (hp : ∀ pid, parent = some pid → pid ∈ m.root.collect) :
      Step m (create_cone m level parent)
  | step_remove_node (m : Model α) (node : Option Nat)
      (hn : ∀ nid, node = some nid → nid ∈ m.root.collect) :
      Step m (remove_node m node)
  | step_load_from_file (m : Model α) (file : Option (List (Option (SaveRec α)))) :
      Step m (load_from_file m file).2

/-- The graphs reachable from a freshly constructed `model_t` by any
sequence of create, remove and load operations. -/
inductive Reachable {α : Type} [CommRing α] : Model α → Prop where
  | init : Reachable (model_t_new α)
  | step {m m' : Model α} : Reachable m → Step m m' → Reachable m'

theorem translateMat_mul {α : Type} [CommRing α] (v w : Fin 3 → α) :
    translateMat v * translateMat w = translateMat (v + w) := by
  ext i j
  fin_cases i <;> fin_cases j <;>
    simp [translateMat, Matrix.mul_apply, Fin.sum_univ_four,
      Matrix.vecHead, Matrix.vecTail] <;>
    ring1

theorem translateMat_zero {α : Type} [CommRing α] :
    translateMat (0 : Fin 3 → α) = 1 := by
  ext i j
  fin_cases i <;> fin_cases j <;>
    simp [translateMat, Matrix.one_apply, Matrix.vecHead, Matrix.vecTail]

theorem glm_rotate_y_inv_mul {α : Type} [CommRing α] (c s : α)
    (h : c ^ 2 + s ^ 2 = 1) : glm_rotate_y c (-s) * glm_rotate_y c s = 1 := by
  ext i j
  fin_cases i <;> fin_cases j <;>
    simp [glm_rotate_y, Matrix.mul_apply, Fin.sum_univ_four, Matrix.one_apply,
      Matrix.vecHead, Matrix.vecTail]
  all_goals
    first
    | linear_combination h
    | ring1

theorem length_flatMap_range {β : Type} (n k : Nat) (f : Nat → List β)
    (h : ∀ i, (f i).length = k) : ((List.range n).flatMap f).length = n * k := by
  induction n with
  | zero => simp
  | succ m ih => simp [List.range_succ, ih, h, Nat.succ_mul]

theorem two_pow_mul_not_lt (b l : Nat) : ¬ b * 2 ^ l < b := by
  have h1 : 1 ≤ 2 ^ l := Nat.one_le_two_pow
  have h2 : b * 1 ≤ b * 2 ^ l := Nat.mul_le_mul_left b h1
  omega

theorem length_makeSphere (l : Nat) :
    (makeSphere l).length = 6 * 2 ^ l * (6 * 2 ^ l) * 6 := by
  rw [makeSphere]
  simp only [if_neg (two_pow_mul_not_lt 6 l)]
  rw [length_flatMap_range _ (6 * 2 ^ l * 6)]
  · ring
  · intro i
    rw [length_flatMap_range _ 6]
    intro j
    simp

theorem length_makeCylinder (l : Nat) :
    (makeCylinder l).length = 8 * 2 ^ l * 12 := by
  rw [makeCylinder]
  simp only [if_neg (two_pow_mul_not_lt 8 l)]
  rw [List.length_append, length_flatMap_range _ 6, length_flatMap_range _ 6]
  · ring
  · intro i
    simp
  · intro i
    simp

theorem length_makeBox : makeBox.length = 36 := by
  rw [makeBox]
  simp

theorem length_makeCone (l : Nat) :
    (makeCone l).length = 8 * 2 ^ l * 6 := by
  rw [makeCone]
  simp only [if_neg (two_pow_mul_not_lt 8 l)]
  rw [length_flatMap_range _ 6]
  intro i
  simp

theorem mul_one_cancel_left {α : Type} [CommRing α] (A B : Mat4 α)
    (hAB : A * B = 1) (X : Mat4 α) : A * (B * X) = X := by
  rw [← mul_assoc, hAB, one_mul]

theorem handle_key_rotate_y_roundtrip (ang : ℝ) (verts : List (Fin 4 → ℝ))
    (rot : Mat4 ℝ) :
    handle_key_rotate_y (-ang) verts (handle_key_rotate_y ang verts rot) = rot := by
  simp only [handle_key_rotate_y]
  have h1 : translateMat (-compute_shape_centroid verts) *
      translateMat (compute_shape_centroid verts) = (1 : Mat4 ℝ) := by
    rw [translateMat_mul, neg_add_cancel, translateMat_zero]
  have h1b : translateMat (compute_shape_centroid verts) *
      translateMat (-compute_shape_centroid verts) = (1 : Mat4 ℝ) := by
    rw [translateMat_mul, add_neg_cancel, translateMat_zero]
  have h2 : glm_rotate_y (Real.cos (-ang)) (Real.sin (-ang)) *
      glm_rotate_y (Real.cos ang) (Real.sin ang) = (1 : Mat4 ℝ) := by
    rw [Real.cos_neg, Real.sin_neg]
    exact glm_rotate_y_inv_mul _ _ (Real.cos_sq_add_sin_sq ang)
  have k1 := mul_one_cancel_left _ _ h1
  have k2 := mul_one_cancel_left _ _ h2
  have k3 := mul_one_cancel_left _ _ h1b
  simp only [mul_assoc, k1, k2, k3]

namespace NTree

/-- Induction over a tree from induction over all its children. -/
theorem my_ind {α : Type} {motive : NTree α → Prop}
    (h : ∀ i d cs, (∀ c ∈ cs, motive c) → motive (.node i d cs)) :
    ∀ t, motive t
  | .node i d cs => h i d cs (fun c hc => my_ind h c)
decreasing_by
  all_goals
    have h2 := List.sizeOf_lt_of_mem hc
    simp only [NTree.node.sizeOf_spec] at *
    omega

theorem attach_flatMap {β γ : Type} (l : List β) (g : β → List γ) :
    l.attach.flatMap (fun c => g c.1) = l.flatMap g := by
  simp [List.flatMap_def, List.attach_map_coe]

theorem collect_node {α : Type} (i : Nat) (d : NodeData α) (cs : List (NTree α)) :
    (NTree.node i d cs).collect = i :: cs.flatMap collect := by
  rw [collect]
  congr 1
  rw [← attach_flatMap cs collect]

theorem insertChild_node {α : Type} (i : Nat) (d : NodeData α)
    (cs : List (NTree α)) (pid : Nat) (c : NTree α) :
    (NTree.node i d cs).insertChild pid c =
      if i = pid then NTree.node i d (cs ++ [c])
      else NTree.node i d (cs.map (fun t => t.insertChild pid c)) := by
  rw [insertChild]
  congr 1
  rw [← List.attach_map_coe cs (fun t => insertChild t pid c)]

theorem find_node {α : Type} (i : Nat) (d : NodeData α)
    (cs : List (NTree α)) (tid : Nat) :
    (NTree.node i d cs).find tid =
      if i = tid then some (NTree.node i d cs)
      else cs.findSome? (fun t => t.find tid) := by
  rw [find]
  congr 1
  show cs.attach.findSome? ((fun t => find t tid) ∘ Subtype.val) = _
  rw [← List.findSome?_map, List.attach_map_subtype_val]

theorem eraseSubtree_node {α : Type} (i : Nat) (d : NodeData α)
    (cs : List (NTree α)) (tid : Nat) :
    (NTree.node i d cs).eraseSubtree tid =
      NTree.node i d ((cs.filter (fun t => t.rootId ≠ tid)).map
        (fun t => t.eraseSubtree tid)) := by
  rw [eraseSubtree]
  congr 1
  rw [← List.attach_map_coe (cs.filter (fun t => t.rootId ≠ tid))
    (fun t => eraseSubtree t tid)]

end NTree

theorem sublist_flatMap_of_mem {γ δ : Type} (l : List γ) (f : γ → List δ)
    (a : γ) (h : a ∈ l) : (f a).Sublist (l.flatMap f) := by
  induction l with
  | nil => cases h
  | cons b l ih =>
    rw [List.flatMap_cons]
    rcases List.mem_cons.mp h with rfl | h2
    · exact List.sublist_append_left _ _
    · exact (ih h2).trans (List.sublist_append_right _ _)

namespace NTree

theorem rootId_mem_collect {α : Type} (t : NTree α) : t.rootId ∈ t.collect := by
  cases t with
  | node i d cs => simp [collect_node, rootId]

theorem insertChild_rootId {α : Type} (t : NTree α) (pid : Nat) (c : NTree α) :
    (t.insertChild pid c).rootId = t.rootId := by
  cases t with
  | node i d cs =>
    rw [insertChild_node]
    split <;> rfl

theorem eraseSubtree_rootId {α : Type} (t : NTree α) (tid : Nat) :
    (t.eraseSubtree tid).rootId = t.rootId := by
  cases t with
  | node i d cs => rw [eraseSubtree_node]; rfl

theorem insertChild_of_not_mem {α : Type} (t : NTree α) (pid : Nat)
    (c : NTree α) (h : pid ∉ t.collect) : t.insertChild pid c = t := by
  induction t using my_ind with
  | h i d cs ih =>
    rw [collect_node] at h
    simp only [List.mem_cons, List.mem_flatMap, not_or, not_exists] at h
    push_neg at h
    rw [insertChild_node, if_neg (fun hip => h.1 hip.symm)]
    congr 1
    rw [List.map_congr_left (fun c' hc' => ih c' hc' (h.2 c' hc')), List.map_id' cs]

theorem mem_insertChild {α : Type} (t : NTree α) (pid : Nat) (c : NTree α)
    (x : Nat) :
    x ∈ (t.insertChild pid c).collect ↔
      x ∈ t.collect ∨ (pid ∈ t.collect ∧ x ∈ c.collect) := by
  induction t using my_ind with
  | h i d cs ih =>
    rw [insertChild_node]
    by_cases hip : i = pid
    · subst hip
      rw [if_pos rfl]
      rw [collect_node, collect_node, List.flatMap_append]
      simp only [List.mem_cons, List.mem_append, List.mem_flatMap,
        List.flatMap_cons, List.flatMap_nil, List.append_nil]
      aesop
    · rw [if_neg hip]
      rw [collect_node, collect_node]
      simp only [List.mem_cons, List.mem_flatMap, List.mem_map]
      constructor
      · rintro (rfl | ⟨t', ⟨c', hc', rfl⟩, hxt⟩)
        · exact Or.inl (Or.inl rfl)
        · rcases (ih c' hc' ).mp hxt with h1 | ⟨hp, hxc⟩
          · exact Or.inl (Or.inr ⟨c', hc', h1⟩)
          · exact Or.inr ⟨Or.inr ⟨c', hc', hp⟩, hxc⟩
      · rintro ((rfl | ⟨c', hc', hx⟩) | ⟨rfl | ⟨c', hc', hp⟩, hxc⟩)
        · exact Or.inl rfl
        · exact Or.inr ⟨_, ⟨c', hc', rfl⟩, (ih c' hc').mpr (Or.inl hx)⟩
        · exact absurd rfl hip
        · exact Or.inr ⟨_, ⟨c', hc', rfl⟩, (ih c' hc').mpr (Or.inr ⟨hp, hxc⟩)⟩

theorem find_eq_none {α : Type} (t : NTree α) (tid : Nat) :
    t.find tid = none ↔ tid ∉ t.collect := by
  induction t using my_ind with
  | h i d cs ih =>
    rw [find_node, collect_node]
    by_cases hit : i = tid
    · subst hit
      simp
    · rw [if_neg hit]
      simp only [List.findSome?_eq_none_iff, List.mem_cons, List.mem_flatMap]
      constructor
      · rintro h (rfl | ⟨c, hc, hx⟩)
        · exact hit rfl
        · exact (ih c hc).mp (h c hc) hx
      · intro h c hc
        rw [ih c hc]
        intro hx
        exact h (Or.inr ⟨c, hc, hx⟩)

theorem mem_of_find_some {α : Type} (t : NTree α) (tid : Nat) (s : NTree α)
    (h : t.find tid = some s) : tid ∈ t.collect := by
  by_contra hmem
  rw [← find_eq_none t tid] at hmem
  rw [h] at hmem
  cases hmem

theorem find_some_rootId {α : Type} (t : NTree α) (tid : Nat) (s : NTree α)
    (h : t.find tid = some s) : s.rootId = tid := by
  induction t using my_ind with
  | h i d cs ih =>
    rw [find_node] at h
    split at h
    · cases h
      simpa [rootId] using by assumption
    · obtain ⟨c, hc, hfc⟩ := List.exists_of_findSome?_eq_some h
      exact ih c hc hfc

theorem find_some_collect_sublist {α : Type} (t : NTree α) (tid : Nat)
    (s : NTree α) (h : t.find tid = some s) : s.collect.Sublist t.collect := by
  induction t using my_ind with
  | h i d cs ih =>
    rw [find_node] at h
    split at h
    · cases h
      exact List.Sublist.refl _
    · obtain ⟨c, hc, hfc⟩ := List.exists_of_findSome?_eq_some h
      rw [collect_node]
      exact ((ih c hc hfc).trans (sublist_flatMap_of_mem cs collect c hc)).trans
        (List.sublist_cons_self _ _)

theorem eraseSubtree_of_not_mem {α : Type} (t : NTree α) (tid : Nat)
    (h : tid ∉ t.collect) : t.eraseSubtree tid = t := by
  induction t using my_ind with
  | h i d cs ih =>
    rw [collect_node] at h
    simp only [List.mem_cons, List.mem_flatMap, not_or, not_exists] at h
    push_neg at h
    rw [eraseSubtree_node]
    have hkeep : cs.filter (fun t => t.rootId ≠ tid) = cs := by
      rw [List.filter_eq_self]
      intro c hc
      simp only [ne_eq, decide_eq_true_eq]
      intro hr
      exact h.2 c hc (hr ▸ rootId_mem_collect c)
    rw [hkeep]
    congr 1
    rw [List.map_congr_left (fun c' hc' => ih c' hc' (h.2 c' hc')), List.map_id' cs]

theorem collect_eraseSubtree_sublist {α : Type} (t : NTree α) (tid : Nat) :
    (t.eraseSubtree tid).collect.Sublist t.collect := by
  induction t using my_ind with
  | h i d cs ih =>
    rw [eraseSubtree_node, collect_node, collect_node]
    apply List.Sublist.cons₂
    induction cs with
    | nil => simp
    | cons c cs ihl =>
      have ihl2 := ihl (fun c' hc' => ih c' (List.mem_cons_of_mem c hc'))
      rw [List.flatMap_cons]
      by_cases hc : c.rootId ≠ tid
      · rw [List.filter_cons_of_pos (by simpa using hc), List.map_cons,
          List.flatMap_cons]
        exact (ih c (List.mem_cons_self c cs)).append ihl2
      · rw [List.filter_cons_of_neg (by simpa using hc)]
        exact ihl2.trans (List.sublist_append_right _ _)

end NTree

namespace NTree

theorem nodup_collect_node_iff {α : Type} (i : Nat) (d : NodeData α)
    (cs : List (NTree α)) :
    (NTree.node i d cs).collect.Nodup ↔
      (i ∉ cs.flatMap collect) ∧ (∀ c ∈ cs, c.collect.Nodup) ∧
        cs.Pairwise (fun a b => ∀ x ∈ a.collect, x ∉ b.collect) := by
  rw [collect_node, List.nodup_cons, List.nodup_flatMap]
  constructor
  · rintro ⟨h1, h2, h3⟩
    refine ⟨h1, h2, ?_⟩
    refine h3.imp ?_
    intro a b hab x hxa hxb
    exact hab hxa hxb
  · rintro ⟨h1, h2, h3⟩
    refine ⟨h1, h2, ?_⟩
    refine h3.imp ?_
    intro a b hab
    intro x hxa hxb
    exact hab x hxa hxb

theorem shared_mem_eq_of_nodup {α : Type} {i : Nat} {d : NodeData α}
    {cs : List (NTree α)} (hnd : (NTree.node i d cs).collect.Nodup)
    {a b : NTree α} (ha : a ∈ cs) (hb : b ∈ cs) {x : Nat}
    (hxa : x ∈ a.collect) (hxb : x ∈ b.collect) : a = b := by
  by_contra hne
  have hpair := ((nodup_collect_node_iff i d cs).mp hnd).2.2
  have hsymm : Symmetric (fun a b : NTree α => ∀ x ∈ a.collect, x ∉ b.collect) :=
    fun a b hab y hy hyb => hab y hyb hy
  exact hpair.forall hsymm ha hb hne x hxa hxb

theorem head_not_mem_child_of_nodup {α : Type} {i : Nat} {d : NodeData α}
    {cs : List (NTree α)} (hnd : (NTree.node i d cs).collect.Nodup)
    {c : NTree α} (hc : c ∈ cs) : i ∉ c.collect := by
  have h1 := ((nodup_collect_node_iff i d cs).mp hnd).1
  intro hy
  exact h1 (List.mem_flatMap.mpr ⟨c, hc, hy⟩)

theorem child_nodup_of_nodup {α : Type} {i : Nat} {d : NodeData α}
    {cs : List (NTree α)} (hnd : (NTree.node i d cs).collect.Nodup)
    {c : NTree α} (hc : c ∈ cs) : c.collect.Nodup :=
  ((nodup_collect_node_iff i d cs).mp hnd).2.1 c hc

theorem nodup_insertChild {α : Type} (t : NTree α) (pid : Nat) (c : NTree α)
    (ht : t.collect.Nodup) (hc : c.collect.Nodup)
    (hdisj : ∀ x ∈ c.collect, x ∉ t.collect) :
    (t.insertChild pid c).collect.Nodup := by
  induction t using my_ind with
  | h i d cs ih =>
    rw [insertChild_node]
    by_cases hip : i = pid
    · rw [if_pos hip]
      rw [nodup_collect_node_iff] at ht ⊢
      obtain ⟨h1, h2, h3⟩ := ht
      refine ⟨?_, ?_, ?_⟩
      · rw [List.flatMap_append]
        simp only [List.flatMap_cons, List.flatMap_nil, List.append_nil,
          List.mem_append]
        rintro (hi | hi)
        · exact h1 hi
        · exact hdisj i hi (by rw [collect_node]; exact List.mem_cons_self _ _)
      · intro c' hc'
        rcases List.mem_append.mp hc' with h | h
        · exact h2 c' h
        · rw [List.mem_singleton.mp h]
          exact hc
      · rw [List.pairwise_append]
        refine ⟨h3, List.pairwise_singleton _ _, ?_⟩
        intro a ha b hb x hxa hxb
        rw [List.mem_singleton.mp hb] at hxb
        refine hdisj x hxb ?_
        rw [collect_node]
        exact List.mem_cons_of_mem _ (List.mem_flatMap.mpr ⟨a, ha, hxa⟩)
    · rw [if_neg hip]
      rw [nodup_collect_node_iff] at ht ⊢
      obtain ⟨h1, h2, h3⟩ := ht
      have hsubd : ∀ c' ∈ cs, ∀ x ∈ c.collect, x ∉ c'.collect := by
        intro c' hc' x hx hxc'
        exact hdisj x hx (by
          rw [collect_node]
          exact List.mem_cons_of_mem _ (List.mem_flatMap.mpr ⟨c', hc', hxc'⟩))
      refine ⟨?_, ?_, ?_⟩
      · intro hi
        rw [List.flatMap_map] at hi
        obtain ⟨c', hc', hic'⟩ := List.mem_flatMap.mp hi
        rcases (mem_insertChild c' pid c i).mp hic' with h | ⟨_, hic⟩
        · exact h1 (List.mem_flatMap.mpr ⟨c', hc', h⟩)
        · exact hdisj i hic (by rw [collect_node]; exact List.mem_cons_self _ _)
      · intro t' ht'
        obtain ⟨c', hc', rfl⟩ := List.mem_map.mp ht'
        exact ih c' hc' (h2 c' hc') (fun x hx hxc' => hsubd c' hc' x hx hxc')
      · rw [List.pairwise_map]
        refine h3.imp_of_mem ?_
        intro a b ha hb hab x hxa hxb
        rcases (mem_insertChild a pid c x).mp hxa with h | ⟨hpa, hxc⟩
        · rcases (mem_insertChild b pid c x).mp hxb with h' | ⟨hpb, hxc'⟩
          · exact hab x h h'
          · exact hsubd a ha x hxc' h
        · rcases (mem_insertChild b pid c x).mp hxb with h' | ⟨hpb, hxc'⟩
          · exact hsubd b hb x hxc h'
          · exact hab pid hpa hpb

theorem findSome?_eq_of_mem {γ δ : Type} (l : List γ) (f : γ → Option δ)
    (c : γ) (v : δ) (hc : c ∈ l) (hval : f c = some v)
    (hothers : ∀ c' ∈ l, c' = c ∨ f c' = none) :
    l.findSome? f = some v := by
  induction l with
  | nil => cases hc
  | cons b l ih =>
    rcases hothers b (List.mem_cons_self b l) with rfl | hb
    · simp only [List.findSome?_cons, hval]
    · simp only [List.findSome?_cons, hb]
      apply ih
      · rcases List.mem_cons.mp hc with rfl | h
        · rw [hval] at hb
          cases hb
        · exact h
      · exact fun c' h' => hothers c' (List.mem_cons_of_mem b h')

end NTree

namespace NTree

theorem rootId_node {α : Type} (i : Nat) (d : NodeData α) (cs : List (NTree α)) :
    (NTree.node i d cs).rootId = i := rfl

theorem mem_collect_eraseSubtree {α : Type} (t : NTree α) (tid : Nat)
    (sub : NTree α) (hnd : t.collect.Nodup) (hfind : t.find tid = some sub)
    (hne : tid ≠ t.rootId) :
    ∀ x, x ∈ (t.eraseSubtree tid).collect ↔ x ∈ t.collect ∧ x ∉ sub.collect := by
  induction t using my_ind with
  | h i d cs ih =>
    intro x
    rw [rootId_node] at hne
    rw [find_node, if_neg (fun h => hne h.symm)] at hfind
    obtain ⟨c0, hc0, hfc0⟩ := List.exists_of_findSome?_eq_some hfind
    have htid_c0 : tid ∈ c0.collect := mem_of_find_some _ _ _ hfc0
    have hsub_sub : ∀ y ∈ sub.collect, y ∈ c0.collect :=
      fun y hy => (find_some_collect_sublist c0 tid sub hfc0).subset hy
    have hi_sub : i ∉ sub.collect :=
      fun hy => head_not_mem_child_of_nodup hnd hc0 (hsub_sub i hy)
    have hchild : ∀ c ∈ cs,
        ((¬ c.rootId = tid) ∧ x ∈ (c.eraseSubtree tid).collect ↔
          x ∈ c.collect ∧ x ∉ sub.collect) := by
      intro c hc
      by_cases htc : tid ∈ c.collect
      · have hcc0 : c = c0 := shared_mem_eq_of_nodup hnd hc hc0 htc htid_c0
        subst hcc0
        by_cases hroot : c.rootId = tid
        · have hsubc : sub = c := by
            cases c with
            | node j dj csj =>
              rw [rootId_node] at hroot
              rw [find_node, if_pos hroot] at hfc0
              exact (Option.some_inj.mp hfc0).symm
          constructor
          · rintro ⟨hr, _⟩
            exact absurd hroot hr
          · rintro ⟨hxc, hxs⟩
            rw [hsubc] at hxs
            exact absurd hxc hxs
        · have := ih c hc (child_nodup_of_nodup hnd hc) hfc0
            (fun h => hroot h.symm)
          constructor
          · rintro ⟨_, hx⟩
            exact (this x).mp hx
          · rintro h
            exact ⟨hroot, (this x).mpr h⟩
      · have hroot : ¬ c.rootId = tid := fun h => htc (h ▸ rootId_mem_collect c)
        have herase : c.eraseSubtree tid = c := eraseSubtree_of_not_mem c tid htc
        have hcc0 : c ≠ c0 := fun h => htc (h ▸ htid_c0)
        have hdisj : ∀ y ∈ c.collect, y ∉ sub.collect := by
          intro y hy hys
          exact hcc0 (shared_mem_eq_of_nodup hnd hc hc0 hy (hsub_sub y hys))
        rw [herase]
        constructor
        · rintro ⟨_, hx⟩
          exact ⟨hx, hdisj x hx⟩
        · rintro ⟨hx, _⟩
          exact ⟨hroot, hx⟩
    rw [eraseSubtree_node, collect_node, collect_node]
    simp only [List.mem_cons, List.mem_flatMap, List.mem_map, List.mem_filter,
      ne_eq, decide_eq_true_eq]
    constructor
    · rintro (rfl | ⟨t', ⟨c, ⟨hc, hr⟩, rfl⟩, hx⟩)
      · exact ⟨Or.inl rfl, hi_sub⟩
      · obtain ⟨hxc, hxs⟩ := (hchild c hc).mp ⟨hr, hx⟩
        exact ⟨Or.inr ⟨c, hc, hxc⟩, hxs⟩
    · rintro ⟨rfl | ⟨c, hc, hxc⟩, hxs⟩
      · exact Or.inl rfl
      · obtain ⟨hr, hx⟩ := (hchild c hc).mpr ⟨hxc, hxs⟩
        exact Or.inr ⟨c.eraseSubtree tid, ⟨c, ⟨hc, hr⟩, rfl⟩, hx⟩

end NTree

namespace NTree

theorem find_eraseSubtree {α : Type} (t : NTree α) (tid : Nat) (sub : NTree α)
    (p : Nat) (ps : NTree α) (hnd : t.collect.Nodup)
    (hfind : t.find tid = some sub) (hne : tid ≠ t.rootId)
    (hp : t.find p = some ps) (hps : p ∉ sub.collect) :
    (t.eraseSubtree tid).find p = some (ps.eraseSubtree tid) := by
  induction t using my_ind with
  | h i d cs ih =>
    rw [rootId_node] at hne
    rw [find_node, if_neg (fun h => hne h.symm)] at hfind
    obtain ⟨c0, hc0, hfc0⟩ := List.exists_of_findSome?_eq_some hfind
    have htid_c0 : tid ∈ c0.collect := mem_of_find_some _ _ _ hfc0
    have hsub_sub : ∀ y ∈ sub.collect, y ∈ c0.collect :=
      fun y hy => (find_some_collect_sublist c0 tid sub hfc0).subset hy
    rw [find_node] at hp
    by_cases hip : i = p
    · rw [if_pos hip] at hp
      cases hp
      rw [eraseSubtree_node, find_node, if_pos hip]
    · rw [if_neg hip] at hp
      obtain ⟨cp, hcp, hfcp⟩ := List.exists_of_findSome?_eq_some hp
      have hp_cp : p ∈ cp.collect := mem_of_find_some _ _ _ hfcp
      have hr_cp : ¬ cp.rootId = tid := by
        intro hr
        have htid_cp : tid ∈ cp.collect := hr ▸ rootId_mem_collect cp
        have hcc : cp = c0 := shared_mem_eq_of_nodup hnd hcp hc0 htid_cp htid_c0
        subst hcc
        have hsubcp : sub = cp := by
          cases cp with
          | node j dj csj =>
            rw [rootId_node] at hr
            rw [find_node, if_pos hr] at hfc0
            exact (Option.some_inj.mp hfc0).symm
        rw [hsubcp] at hps
        exact hps hp_cp
      rw [eraseSubtree_node, find_node, if_neg hip]
      apply findSome?_eq_of_mem _ _ (cp.eraseSubtree tid) _
      · exact List.mem_map.mpr ⟨cp, List.mem_filter.mpr
          ⟨hcp, by simpa using hr_cp⟩, rfl⟩
      · by_cases htc : tid ∈ cp.collect
        · have hcc : cp = c0 := shared_mem_eq_of_nodup hnd hcp hc0 htc htid_c0
          subst hcc
          exact ih cp hcp (child_nodup_of_nodup hnd hcp) hfc0
            (fun h => hr_cp h.symm) hfcp
        · rw [eraseSubtree_of_not_mem cp tid htc]
          have hts : tid ∉ ps.collect :=
            fun hy => htc ((find_some_collect_sublist cp p ps hfcp).subset hy)
          rw [eraseSubtree_of_not_mem ps tid hts]
          exact hfcp
      · intro t' ht'
        obtain ⟨c, hcf, rfl⟩ := List.mem_map.mp ht'
        have hc : c ∈ cs := (List.mem_filter.mp hcf).1
        by_cases hccp : c = cp
        · subst hccp
          exact Or.inl rfl
        · refine Or.inr ?_
          rw [find_eq_none]
          intro hpc
          have hpc2 : p ∈ c.collect := (collect_eraseSubtree_sublist c tid).subset hpc
          exact hccp (shared_mem_eq_of_nodup hnd hc hcp hpc2 hp_cp)

end NTree

theorem collectPD_node {α : Type} (i : Nat) (d : NodeData α)
    (cs : List (NTree α)) (p : Option Nat) :
    collectPD (NTree.node i d cs) p =
      (i, p, d) :: cs.flatMap (fun c => collectPD c (some i)) := by
  rw [collectPD]
  congr 1
  rw [← NTree.attach_flatMap cs (fun c => collectPD c (some i))]

theorem modelInv_new (α : Type) [CommRing α] : ModelInv (model_t_new α) := by
  refine ⟨?_, ?_, ?_, ?_⟩ <;>
    simp [model_t_new, NTree.collect_node]

theorem modelInv_insert_fresh {α : Type} (m : Model α) (d : NodeData α)
    (pid : Nat) (os : List ShapeRec) (hInv : ModelInv m)
    (hpid : pid ∈ m.root.collect) :
    ModelInv
      { root := m.root.insertChild pid (NTree.node m.nextId d [])
        all_nodes := m.all_nodes ++ [m.nextId]
        owned_shapes := os
        nextId := m.nextId + 1 } := by
  obtain ⟨h1, h2, h3, h4⟩ := hInv
  have hfresh : m.nextId ∉ m.root.collect := fun h => absurd (h4 _ h) (lt_irrefl _)
  have hcollect_child : (NTree.node m.nextId d ([] : List (NTree α))).collect
      = [m.nextId] := by
    simp [NTree.collect_node]
  refine ⟨?_, ?_, ?_, ?_⟩
  · apply NTree.nodup_insertChild _ _ _ h1
    · rw [hcollect_child]
      exact List.nodup_singleton _
    · rw [hcollect_child]
      intro x hx
      rw [List.mem_singleton.mp hx]
      exact hfresh
  · rw [List.nodup_append]
    refine ⟨h2, List.nodup_singleton _, ?_⟩
    intro x hx hx1
    rw [List.mem_singleton.mp hx1] at hx
    exact hfresh ((h3 _).mp hx)
  · intro i
    rw [List.mem_append, List.mem_singleton,
      NTree.mem_insertChild _ _ _ i, hcollect_child, List.mem_singleton]
    constructor
    · rintro (h | rfl)
      · exact Or.inl ((h3 _).mp h)
      · exact Or.inr ⟨hpid, rfl⟩
    · rintro (h | ⟨_, rfl⟩)
      · exact Or.inl ((h3 _).mpr h)
      · exact Or.inr rfl
  · intro i hi
    rcases (NTree.mem_insertChild _ _ _ i).mp hi with h | ⟨_, h⟩
    · exact Nat.lt_succ_of_lt (h4 _ h)
    · rw [hcollect_child, List.mem_singleton] at h
      rw [h]
      exact Nat.lt_succ_self _

theorem modelInv_create_node {α : Type} [CommRing α] (m : Model α)
    (sh : ShapeRec) (parent : Option Nat) (hInv : ModelInv m)
    (hp : ∀ pid, parent = some pid → pid ∈ m.root.collect) :
    ModelInv (create_node m sh parent) := by
  have hpid : (parent.getD m.root.rootId) ∈ m.root.collect := by
    cases parent with
    | none => exact NTree.rootId_mem_collect m.root
    | some pid => exact hp pid rfl
  exact modelInv_insert_fresh m _ _ _ hInv hpid

theorem modelInv_remove_node {α : Type} (m : Model α) (node : Option Nat)
    (hInv : ModelInv m) : ModelInv (remove_node m node) := by
  obtain ⟨h1, h2, h3, h4⟩ := hInv
  cases node with
  | none => exact ⟨h1, h2, h3, h4⟩
  | some nid =>
    show ModelInv (if nid = m.root.rootId then m else _)
    by_cases hroot : nid = m.root.rootId
    · rw [if_pos hroot]
      exact ⟨h1, h2, h3, h4⟩
    · rw [if_neg hroot]
      cases hfind : m.root.find nid with
      | none => exact ⟨h1, h2, h3, h4⟩
      | some sub =>
        have hmem := NTree.mem_collect_eraseSubtree m.root nid sub h1 hfind hroot
        refine ⟨?_, ?_, ?_, ?_⟩
        · exact (NTree.collect_eraseSubtree_sublist m.root nid).nodup h1
        · exact h2.filter _
        · intro i
          rw [List.mem_filter, hmem i, decide_eq_true_eq, h3]
        · intro i hi
          exact h4 i ((NTree.collect_eraseSubtree_sublist m.root nid).subset hi)

theorem load_line_inv {α : Type} [CommRing α] (st : Model α × List Nat)
    (line : Option (SaveRec α))
    (h : ModelInv st.1 ∧ ∀ i ∈ st.2, i ∈ st.1.root.collect) :
    ModelInv (load_line st line).1 ∧
      ∀ i ∈ (load_line st line).2, i ∈ (load_line st line).1.root.collect := by
  obtain ⟨hInv, hnodes⟩ := h
  cases line with
  | none => exact ⟨hInv, hnodes⟩
  | some r =>
    show ModelInv (Prod.fst (_, _)) ∧ _
    simp only [load_line]
    set pid : Nat :=
      if 0 ≤ r.parentIdx ∧ r.parentIdx < (st.2.length : Int)
      then st.2.getD r.parentIdx.toNat st.1.root.rootId
      else st.1.root.rootId with hpid_def
    have hpid : pid ∈ st.1.root.collect := by
      rw [hpid_def]
      split
      · rename_i hin
        have hlt : r.parentIdx.toNat < st.2.length := by omega
        rw [List.getD_eq_getElem st.2 _ hlt]
        exact hnodes _ (List.getElem_mem hlt)
      · exact NTree.rootId_mem_collect st.1.root
    refine ⟨modelInv_insert_fresh st.1 _ pid _ hInv hpid, ?_⟩
    intro i hi
    rcases List.mem_append.mp hi with hiold | hinew
    · exact (NTree.mem_insertChild _ _ _ i).mpr (Or.inl (hnodes i hiold))
    · rw [List.mem_singleton.mp hinew]
      refine (NTree.mem_insertChild _ _ _ _).mpr (Or.inr ⟨hpid, ?_⟩)
      simp [NTree.collect_node]

theorem load_foldl_inv {α : Type} [CommRing α]
    (lines : List (Option (SaveRec α))) (st : Model α × List Nat)
    (h : ModelInv st.1 ∧ ∀ i ∈ st.2, i ∈ st.1.root.collect) :
    ModelInv (lines.foldl load_line st).1 := by
  induction lines generalizing st with
  | nil => exact h.1
  | cons l ls ih => exact ih _ (load_line_inv st l h)

theorem modelInv_load_from_file {α : Type} [CommRing α] (m : Model α)
    (file : Option (List (Option (SaveRec α)))) (hInv : ModelInv m) :
    ModelInv (load_from_file m file).2 := by
  cases file with
  | none => exact hInv
  | some lines =>
    apply load_foldl_inv lines (model_t_new α, [0])
    refine ⟨modelInv_new α, ?_⟩
    intro i hi
    rw [List.mem_singleton.mp hi]
    simp [model_t_new, NTree.collect_node]

theorem reachable_modelInv {α : Type} [CommRing α] (m : Model α)
    (h : Reachable m) : ModelInv m := by
  induction h with
  | init => exact modelInv_new α
  | step _ hstep ih =>
    cases hstep with
    | step_create_sphere level parent hp => exact modelInv_create_node _ _ parent ih hp
    | step_create_cylinder level parent hp => exact modelInv_create_node _ _ parent ih hp
    | step_create_box parent hp => exact modelInv_create_node _ _ parent ih hp
    | step_create_cone level parent hp => exact modelInv_create_node _ _ parent ih hp
    | step_remove_node node hn => exact modelInv_remove_node _ node ih
    | step_load_from_file file => exact modelInv_load_from_file _ file ih

theorem length_filter_not_mem {l s : List Nat} (hl : l.Nodup) (hs : s.Nodup)
    (hsub : ∀ x ∈ s, x ∈ l) :
    (l.filter (fun i => decide (¬ i ∈ s))).length + s.length = l.length := by
  have hperm : List.Perm (l.filter (fun i => decide (i ∈ s))) s := by
    rw [List.perm_ext_iff_of_nodup (hl.filter _) hs]
    intro a
    simp only [List.mem_filter, decide_eq_true_eq]
    exact ⟨fun h => h.2, fun h => ⟨hsub a h, h⟩⟩
  have hlen := hperm.length_eq
  have hsplit : l.length = (l.filter (fun i => decide (i ∈ s))).length +
      (l.filter (fun i => !(decide (i ∈ s)))).length :=
    List.length_eq_length_filter_add _
  have hsame : l.filter (fun i => !(decide (i ∈ s))) =
      l.filter (fun i => decide (¬ i ∈ s)) := by
    congr 1
    funext i
    simp [decide_not]
  rw [hsame] at hsplit
  omega

theorem eq_singleton_of_nodup {γ : Type} (l : List γ) (a : γ) (hnd : l.Nodup)
    (ha : a ∈ l) (hall : ∀ b ∈ l, b = a) : l = [a] := by
  cases l with
  | nil => cases ha
  | cons b t =>
    have hb : b = a := hall b (List.mem_cons_self b t)
    subst hb
    have ht : t = [] := by
      cases t with
      | nil => rfl
      | cons c u =>
        have hc : c = b :=
          hall c (List.mem_cons_of_mem _ (List.mem_cons_self c u))
        subst hc
        exact absurd (List.mem_cons_self c u) (List.nodup_cons.mp hnd).1
    rw [ht]

namespace NTree

theorem children_nodup_of_collect_nodup {α : Type} {i : Nat} {d : NodeData α}
    {cs : List (NTree α)} (hnd : (NTree.node i d cs).collect.Nodup) :
    cs.Nodup := by
  have hpair := ((nodup_collect_node_iff i d cs).mp hnd).2.2
  refine hpair.imp_of_mem ?_
  intro a b ha hb hab heq
  exact hab (rootId b) (heq ▸ rootId_mem_collect b) (rootId_mem_collect b)

theorem find_child_of_children {α : Type} (s : NTree α) (c : NTree α)
    (hnd : s.collect.Nodup) (hc : c ∈ s.childrenOf) :
    s.find c.rootId = some c := by
  cases s with
  | node i d cs =>
    have hc2 : c ∈ cs := hc
    have hir : ¬ i = c.rootId :=
      fun h => head_not_mem_child_of_nodup hnd hc2 (h ▸ rootId_mem_collect c)
    rw [find_node, if_neg hir]
    apply findSome?_eq_of_mem _ _ c _ hc2
    · cases c with
      | node j dj csj => rw [rootId_node, find_node, if_pos rfl]
    · intro c' hc'
      by_cases hcc : c' = c
      · exact Or.inl hcc
      · refine Or.inr ?_
        rw [find_eq_none]
        intro hmem
        exact hcc (shared_mem_eq_of_nodup hnd hc' hc2 hmem (rootId_mem_collect c))

theorem find_trans {α : Type} (t : NTree α) (a b : Nat) (s s' : NTree α)
    (hnd : t.collect.Nodup) (ha : t.find a = some s) (hb : s.find b = some s') :
    t.find b = some s' := by
  induction t using my_ind with
  | h i d cs ih =>
    rw [find_node] at ha
    split at ha
    · cases ha
      exact hb
    · obtain ⟨ca, hca, hfca⟩ := List.exists_of_findSome?_eq_some ha
      have hres := ih ca hca (child_nodup_of_nodup hnd hca) hfca
      have hbca : b ∈ ca.collect :=
        (find_some_collect_sublist ca a s hfca).subset (mem_of_find_some s b s' hb)
      have hbi : ¬ i = b :=
        fun h => head_not_mem_child_of_nodup hnd hca (h ▸ hbca)
      rw [find_node, if_neg hbi]
      apply findSome?_eq_of_mem _ _ ca _ hca hres
      intro c' hc'
      by_cases hcc : c' = ca
      · exact Or.inl hcc
      · refine Or.inr ?_
        rw [find_eq_none]
        intro hmem
        exact hcc (shared_mem_eq_of_nodup hnd hc' hca hmem hbca)

end NTree

theorem remove_node_some_eq {α : Type} (m : Model α) (n : Nat) (sub : NTree α)
    (hfind : m.root.find n = some sub) (hnotroot : n ≠ m.root.rootId) :
    remove_node m (some n) =
      { m with root := m.root.eraseSubtree n
               all_nodes :=
                 m.all_nodes.filter (fun i => decide (¬ i ∈ sub.collect)) } := by
  show (if n = m.root.rootId then m else _) = _
  rw [if_neg hnotroot, hfind]

theorem erase_child_count {α : Type} (ps : NTree α) (n : Nat) (c : NTree α)
    (hps_nodup : ps.collect.Nodup) (hc : c ∈ ps.childrenOf)
    (hcn : c.rootId = n) :
    (ps.eraseSubtree n).childrenOf.length + 1 = ps.childrenOf.length := by
  cases ps with
  | node p0 dp csp =>
    rw [NTree.eraseSubtree_node]
    show ((csp.filter _).map _).length + 1 = csp.length
    rw [List.length_map]
    have hcsp_nodup : csp.Nodup :=
      NTree.children_nodup_of_collect_nodup hps_nodup
    have hone : csp.filter (fun t => decide (t.rootId = n)) = [c] := by
      apply eq_singleton_of_nodup _ _ (hcsp_nodup.filter _)
      · exact List.mem_filter.mpr ⟨hc, by simp [hcn]⟩
      · intro b hb
        obtain ⟨hbmem, hbr⟩ := List.mem_filter.mp hb
        rw [decide_eq_true_eq] at hbr
        apply NTree.shared_mem_eq_of_nodup hps_nodup hbmem hc
        · exact hbr ▸ NTree.rootId_mem_collect b
        · exact hcn ▸ NTree.rootId_mem_collect c
    have hsplit : csp.length =
        (csp.filter (fun t => decide (t.rootId = n))).length +
          (csp.filter (fun t => !(decide (t.rootId = n)))).length :=
      List.length_eq_length_filter_add _
    rw [hone] at hsplit
    have hsame : csp.filter (fun t => !(decide (t.rootId = n))) =
        csp.filter (fun t => decide (t.rootId ≠ n)) := by
      congr 1
      funext t
      simp [ne_eq, decide_not]
    rw [hsame] at hsplit
    simp only [List.length_singleton] at hsplit
    omega

/-- C2: for every node, `get_world_matrix()` equals the left-to-right
product of the local matrices of its ancestor chain taken from the root
ancestor down to the node itself, and a node with no parent returns
exactly its own local matrix. -/
theorem C2_world_matrix_is_chain_product :
    (∀ n : NodeUp ℝ, get_world_matrix n = (ancestor_locals n).prod) ∧
      (∀ d : NodeData ℝ, get_world_matrix (NodeUp.orphan d) = local_matrix d) := by
  constructor
  · intro n
    induction n with
    | orphan d => simp [get_world_matrix, ancestor_locals]
    | child d p ih =>
      simp [get_world_matrix, ancestor_locals, ih, List.prod_append]
  · intro d
    rfl

/-- C3: for every node, `local_matrix()` is exactly the product
`translation * rotation * scale` in that order. -/
theorem C3_local_matrix_is_translation_rotation_scale :
    ∀ d : NodeData ℝ, local_matrix d = d.translation * d.rotation * d.scale :=
  fun _ => rfl

/-- C8: on a freshly created Sphere node (tessellation level 1, as the
editor creates it), the `handle_key` incremental rotation of +10 degrees
about Y followed by -10 degrees about Y — each built as
`translate(pivot) * rotate(ang, Y) * translate(-pivot) * rotation_old`
with the pivot recomputed as the centroid of the shape's raw local
vertices both times — restores the rotation matrix exactly (in real
arithmetic). -/
theorem C8_rotate_plus_minus_ten_restores_rotation :
    ∀ rot : Mat4 ℝ,
      handle_key_rotate_y (glm_radians (-10)) (sphere_t_vertices 1)
        (handle_key_rotate_y (glm_radians 10) (sphere_t_vertices 1) rot) = rot := by
  intro rot
  have h : glm_radians (-10) = -(glm_radians 10) := by
    unfold glm_radians
    ring
  rw [h]
  exact handle_key_rotate_y_roundtrip (glm_radians 10) _ rot

theorem foldl_load_line_filter {α : Type} [CommRing α]
    (lines : List (Option (SaveRec α))) (st : Model α × List Nat) :
    lines.foldl load_line st =
      (lines.filter (fun l => l.isSome)).foldl load_line st := by
  induction lines generalizing st with
  | nil => rfl
  | cons l ls ih =>
    cases l with
    | none =>
      rw [List.foldl_cons, List.filter_cons_of_neg (by simp)]
      exact ih st
    | some r =>
      rw [List.filter_cons_of_pos (by simp), List.foldl_cons, List.foldl_cons]
      exact ih _

/-- C7: `load_from_file` returns `false` exactly when the file cannot be
opened, and then leaves the graph untouched; on an opened file every
malformed line (one whose 15-field extraction fails) is skipped without
aborting the load — loading is the same as loading with the malformed
lines deleted — and the call returns `true`. -/
theorem C7_load_error_handling {α : Type} [CommRing α] :
    (∀ (m : Model α) (file : Option (List (Option (SaveRec α)))),
      ((load_from_file m file).1 = false ↔ file = none)) ∧
    (∀ m : Model α, load_from_file m none = (false, m)) ∧
    (∀ (m : Model α) (lines : List (Option (SaveRec α))),
      load_from_file m (some lines) =
        load_from_file m (some (lines.filter (fun l => l.isSome)))) := by
  refine ⟨?_, fun m => rfl, ?_⟩
  · intro m file
    cases file <;> simp [load_from_file]
  · intro m lines
    show (true, _) = (true, _)
    rw [foldl_load_line_filter]

/-- C10: `remove_node` never touches `owned_shapes`: the pool, and with it
every shape referenced by a node of the removed subtree, is exactly as
before the removal. -/
theorem C10_remove_node_preserves_owned_shapes {α : Type} (m : Model α)
    (node : Option Nat) :
    (remove_node m node).owned_shapes = m.owned_shapes ∧
    ∀ (sIdx : Nat) (sh : ShapeRec), m.owned_shapes[sIdx]? = some sh →
      (remove_node m node).owned_shapes[sIdx]? = some sh := by
  have h : (remove_node m node).owned_shapes = m.owned_shapes := by
    cases node with
    | none => rfl
    | some nid =>
      show (if nid = m.root.rootId then m else _).owned_shapes = _
      split
      · rfl
      · cases m.root.find nid <;> rfl
  exact ⟨h, fun sIdx sh hs => h ▸ hs⟩

theorem C10_witness :
    ((create_box (model_t_new ℚ) none).owned_shapes[0]? = some (mkShape .box 0)) ∧
    (remove_node (create_box (model_t_new ℚ) none) (some 1)).owned_shapes[0]? =
      some (mkShape .box 0) := by
  refine ⟨rfl, ?_⟩
  exact (C10_remove_node_preserves_owned_shapes
    (create_box (model_t_new ℚ) none) (some 1)).2 0 (mkShape .box 0) rfl

/-- C4: for tessellation levels `l < l' ≤ 4` the generated vertex count of
a Sphere, a Cylinder and a Cone is strictly larger at `l'` than at `l`,
while a Box mesh has exactly 36 vertices at every level. -/
theorem C4_vertex_count_monotone_and_box_constant :
    (∀ l l' : Nat, l < l' → l' ≤ 4 →
      (sphere_t_vertices l).length < (sphere_t_vertices l').length ∧
      (cylinder_t_vertices l).length < (cylinder_t_vertices l').length ∧
      (cone_t_vertices l).length < (cone_t_vertices l').length) ∧
    ∀ level : Nat, (box_t_vertices level).length = 36 := by
  constructor
  · intro l l' hl hl4
    have hcl : clamp_level l = l := by
      unfold clamp_level
      rw [if_neg (by omega)]
    have hcl' : clamp_level l' = l' := by
      unfold clamp_level
      rw [if_neg (by omega)]
    have hpow : 2 ^ l < 2 ^ l' := Nat.pow_lt_pow_right (by omega) hl
    have hpos : 0 < 2 ^ l := Nat.pos_pow_of_pos l (by omega)
    refine ⟨?_, ?_, ?_⟩
    · rw [sphere_t_vertices, sphere_t_vertices, hcl, hcl',
        length_makeSphere, length_makeSphere]
      nlinarith
    · rw [cylinder_t_vertices, cylinder_t_vertices, hcl, hcl',
        length_makeCylinder, length_makeCylinder]
      nlinarith
    · rw [cone_t_vertices, cone_t_vertices, hcl, hcl',
        length_makeCone, length_makeCone]
      nlinarith
  · intro level
    rw [box_t_vertices, length_makeBox]

theorem C4_witness :
    ((0 : Nat) < 1 ∧ (1 : Nat) ≤ 4) ∧
    ((sphere_t_vertices 0).length < (sphere_t_vertices 1).length ∧
      (cylinder_t_vertices 0).length < (cylinder_t_vertices 1).length ∧
      (cone_t_vertices 0).length < (cone_t_vertices 1).length) ∧
    (box_t_vertices 3).length = 36 :=
  ⟨⟨by decide, by decide⟩,
    C4_vertex_count_monotone_and_box_constant.1 0 1 (by decide) (by decide),
    C4_vertex_count_monotone_and_box_constant.2 3⟩

/-- C6: after any sequence of create (sphere, cylinder, box, cone),
`remove_node` and `load_from_file` operations starting from a fresh graph,
`all_nodes` is duplicate-free and contains exactly the ids of the nodes
reachable from `root` (pre-order traversal membership). -/
theorem C6_all_nodes_is_reachable_set {α : Type} [CommRing α] (m : Model α)
    (h : Reachable m) :
    m.all_nodes.Nodup ∧ ∀ i, i ∈ m.all_nodes ↔ i ∈ m.root.collect := by
  obtain ⟨h1, h2, h3, h4⟩ := reachable_modelInv m h
  exact ⟨h2, h3⟩

theorem C6_witness :
    (create_box (model_t_new ℚ) none).all_nodes.Nodup ∧
      ∀ i, i ∈ (create_box (model_t_new ℚ) none).all_nodes ↔
        i ∈ (create_box (model_t_new ℚ) none).root.collect :=
  C6_all_nodes_is_reachable_set _
    (Reachable.step Reachable.init
      (Step.step_create_box (model_t_new ℚ) none
        (fun pid h => Option.noConfusion h)))

theorem insertChild_rootId_childrenOf {α : Type} (t : NTree α) (c : NTree α) :
    (t.insertChild t.rootId c).childrenOf = t.childrenOf ++ [c] := by
  cases t with
  | node i d cs =>
    rw [NTree.rootId_node, NTree.insertChild_node, if_pos rfl]
    rfl

/-- C9: during `load_from_file`, a parseable line whose `parentIndex` is
negative or at least the number of nodes built so far is not rejected:
the loop still constructs the node (it is appended to the line-index list
and to `all_nodes`) and silently attaches it as a child of the fresh
root. -/
theorem C9_out_of_range_parent_attaches_to_root {α : Type} [CommRing α]
    (st : Model α × List Nat) (r : SaveRec α)
    (hout : r.parentIdx < 0 ∨ (st.2.length : Int) ≤ r.parentIdx) :
    (load_line st (some r)).2 = st.2 ++ [st.1.nextId] ∧
    ∃ d : NodeData α,
      (load_line st (some r)).1.root =
        st.1.root.insertChild st.1.root.rootId (NTree.node st.1.nextId d []) ∧
      (load_line st (some r)).1.root.childrenOf =
        st.1.root.childrenOf ++ [NTree.node st.1.nextId d []] ∧
      (load_line st (some r)).1.all_nodes = st.1.all_nodes ++ [st.1.nextId] := by
  have hcond : ¬ (0 ≤ r.parentIdx ∧ r.parentIdx < (st.2.length : Int)) := by
    omega
  simp only [load_line, if_neg hcond]
  refine ⟨trivial, _, rfl, ?_, trivial⟩
  exact insertChild_rootId_childrenOf st.1.root _

theorem C9_witness :
    ((-1 : Int) < 0 ∨ ((([0] : List Nat).length : Int) ≤ -1)) ∧
    (load_line (model_t_new ℚ, [0])
        (some ⟨-1, -1, ![0, 0, 0], ![0, 0, 0, 1], ![1, 1, 1], ![1, 1, 1]⟩)).2 =
      [0] ++ [(model_t_new ℚ).nextId] :=
  ⟨by decide,
    (C9_out_of_range_parent_attaches_to_root (model_t_new ℚ, [0])
      ⟨-1, -1, ![0, 0, 0], ![0, 0, 0, 1], ![1, 1, 1], ![1, 1, 1]⟩
      (by decide)).1⟩

/-- C5: `remove_node` is a no-op on a null argument and on the root;
removing a live non-root node `n` whose subtree has `K` descendants
(subtree size `K + 1`) detaches it from its parent `p` (the parent's
child count drops by exactly 1) and shrinks `all_nodes` by exactly
`K + 1`. -/
theorem C5_remove_node_spec {α : Type} [CommRing α] (m : Model α)
    (n p : Nat) (sub ps : NTree α) (hInv : ModelInv m)
    (hfind : m.root.find n = some sub) (hnotroot : n ≠ m.root.rootId)
    (hp : m.root.find p = some ps)
    (hchild : n ∈ ps.childrenOf.map NTree.rootId) :
    remove_node m none = m ∧
    remove_node m (some m.root.rootId) = m ∧
    (remove_node m (some n)).all_nodes.length + sub.collect.length
        = m.all_nodes.length ∧
    ∃ ps', (remove_node m (some n)).root.find p = some ps' ∧
      ps'.childrenOf.length + 1 = ps.childrenOf.length := by
  obtain ⟨h1, h2, h3, h4⟩ := hInv
  have hrm := remove_node_some_eq m n sub hfind hnotroot
  obtain ⟨c, hc, hcn⟩ := List.mem_map.mp hchild
  have hps_nodup : ps.collect.Nodup :=
    (NTree.find_some_collect_sublist m.root p ps hp).nodup h1
  have hfc : m.root.find n = some c := by
    have hin := NTree.find_child_of_children ps c hps_nodup hc
    rw [hcn] at hin
    exact NTree.find_trans m.root p n ps c h1 hp hin
  have hsubc : sub = c := by
    rw [hfind] at hfc
    exact Option.some_inj.mp hfc
  have hrootps : ps.rootId = p := NTree.find_some_rootId m.root p ps hp
  have hpnotsub : p ∉ sub.collect := by
    rw [hsubc]
    intro hmem
    cases ps with
    | node p0 dp csp =>
      rw [NTree.rootId_node] at hrootps
      subst hrootps
      exact NTree.head_not_mem_child_of_nodup hps_nodup hc hmem
  refine ⟨rfl, ?_, ?_, ?_⟩
  · show (if m.root.rootId = m.root.rootId then m else _) = m
    rw [if_pos rfl]
  · rw [hrm]
    apply length_filter_not_mem h2
    · exact (NTree.find_some_collect_sublist m.root n sub hfind).nodup h1
    · intro x hx
      exact (h3 x).mpr
        ((NTree.find_some_collect_sublist m.root n sub hfind).subset hx)
  · refine ⟨ps.eraseSubtree n, ?_, ?_⟩
    · rw [hrm]
      exact NTree.find_eraseSubtree m.root n sub p ps h1 hfind hnotroot hp hpnotsub
    · exact erase_child_count ps n c hps_nodup hc hcn

theorem C5_witness :
    (remove_node (create_box (model_t_new ℚ) none) (some 1)).all_nodes.length +
        (NTree.node 1 (newNodeData (some 0) : NodeData ℚ) []).collect.length =
      (create_box (model_t_new ℚ) none).all_nodes.length :=
  (C5_remove_node_spec (create_box (model_t_new ℚ) none) 1 0
    (NTree.node 1 (newNodeData (some 0)) [])
    (NTree.node 0 (newNodeData none) [NTree.node 1 (newNodeData (some 0)) []])
    (by norm_num [ModelInv, create_box, create_node, model_t_new,
      NTree.insertChild_node, NTree.rootId_node, NTree.collect_node])
    (by norm_num [create_box, create_node, model_t_new, NTree.insertChild_node,
      NTree.rootId_node, NTree.find_node])
    (by norm_num [create_box, create_node, model_t_new, NTree.insertChild_node,
      NTree.rootId_node])
    (by norm_num [create_box, create_node, model_t_new, NTree.insertChild_node,
      NTree.rootId_node, NTree.find_node])
    (by simp [NTree.childrenOf, NTree.rootId_node])).2.2.1

/-- C1 (refuted as stated): the claim's own example violates the claimed
round-trip. Saving a graph of root plus one Box writes two lines (the
root line `-1 -1 ...` included); loading parses the root line as an
ordinary node, so the fresh graph has 3 nodes, not 2: under the new root
sit a shapeless copy of the old root (id 1) and the box (id 2), because
every saved `parentIndex` is resolved against a node list that already
contains the fresh root. -/
theorem C1_save_load_roundtrip_gains_a_node :
    (create_box (model_t_new ℚ) none).all_nodes.length = 2 ∧
    (load_from_file (model_t_new ℚ)
        (some ((save_to_file (create_box (model_t_new ℚ) none)).map
          some))).2.all_nodes.length = 3 ∧
    ((load_from_file (model_t_new ℚ)
        (some ((save_to_file (create_box (model_t_new ℚ) none)).map
          some))).2.root.childrenOf.map
      (fun c => (c.rootId, c.dataOf.shape))) = [(1, none), (2, some 0)] := by
  refine ⟨?_, ?_, ?_⟩ <;>
    norm_num [load_from_file, model_t_new, load_line, create_box,
      create_node, save_to_file, collectPD_node, NTree.insertChild_node,
      NTree.rootId_node, newNodeData, mkShape, clamp_level, shapeTypeCode,
      List.findIdx?_cons, Option.getD, NTree.childrenOf, NTree.dataOf]
